import Mathlib

/-! Verification development for the teapot build tool.

The definitions below are a shallow embedding of the dependency/feature
resolution engine and the build orchestrator of the teapot repository
(`src/main.rs`, `src/compiler.rs`, `src/config.rs`).  Filesystem paths are
modelled as lists of components (`Path::join` is list append), the
filesystem and the external C toolchain are modelled as explicit
environment parameters, and the host operating system name
(`std::env::consts::OS`) is threaded as an explicit parameter, so every
function is pure and executable.  `HashMap`s whose keys are the manifest's
feature names are modelled as association lists (their keys are unique by
construction, and the code only ever calls `get`). -/

namespace Teapot

/-- A filesystem path (`PathBuf`), as the list of its components. -/
abbrev FsPath := List String

/-- Render a path the way `Path::display` does inside flag strings. -/
def renderPath (p : FsPath) : String := String.intercalate "/" p

/-- `Feature` (main.rs): a feature name together with its enabled flag. -/
structure Feature where
  name : String
  enabled : Bool
  deriving DecidableEq

/-- `config::Dependency`: a dependency declaration.  `path` is `none` when
the manifest entry carries no `path` key (the code panics on such entries:
teapot only supports path-based dependencies). -/
structure Dependency where
  name : String
  path : Option FsPath
  features : List String
  deriving DecidableEq

/-- `config::Package`. -/
structure Package where
  name : String
  version : String
  features : List String
  deriving DecidableEq

/-- `config::Dependencies`: base dependency list plus per-feature lists. -/
structure Dependencies where
  base : List Dependency
  features : List (String × List Dependency)
  deriving DecidableEq

/-- `config::Defines`: base define list plus per-feature lists.  A define is
a name with an optional value. -/
structure Defines where
  base : List (String × Option String)
  features : List (String × List (String × Option String))
  deriving DecidableEq

/-- `config::Libraries`: base system-library list plus per-feature lists. -/
structure Libraries where
  base : List String
  features : List (String × List String)
  deriving DecidableEq

/-- `config::TeaConfig`: the loaded manifest. -/
structure TeaConfig where
  package : Package
  dependencies : Dependencies
  defines : Defines
  libraries : Libraries
  deriving DecidableEq

/-- `config::BASE_FEATURES`: the two implicit platform feature names. -/
def BASE_FEATURES : List String := ["windows", "linux"]

/-- Feature resolution inside `Leaf::from_config` (main.rs lines 91-112):
one record per name in `BASE_FEATURES ++ declared`, enabled iff the name is
contained in the requested list. -/
def resolveFeatures (declared : List String) (enabledFeatures : List String) :
    List Feature :=
  (BASE_FEATURES ++ declared).map fun n =>
    if enabledFeatures.contains n then { name := n, enabled := true }
    else { name := n, enabled := false }

/-- `add_default_features` (main.rs lines 73-77): append the host OS name. -/
def addDefaultFeatures (os : String) (features : List String) : List String :=
  features ++ [os]

/-- One step of the dependency flattening loop of `Leaf::from_config`
(main.rs lines 115-119): the `if let Some(deps) = ... .get(feature)`
append. -/
def depStep (config : TeaConfig) (deps : List Dependency) (feature : String) :
    List Dependency :=
  match config.dependencies.features.lookup feature with
  | some ds => deps ++ ds
  | none => deps

/-- Dependency flattening inside `Leaf::from_config` (main.rs lines
114-119): start from the base list and, for each entry of the
`enabled_features` list in order, append that feature's dependency list if
the manifest has one. -/
def effectiveDeps (config : TeaConfig) (enabledFeatures : List String) :
    List Dependency :=
  enabledFeatures.foldl (depStep config) config.dependencies.base

/-- One step of the define flattening loop (main.rs lines 144-148). -/
def defineStep (config : TeaConfig) (defs : List (String × Option String))
    (f : Feature) : List (String × Option String) :=
  match config.defines.features.lookup f.name with
  | some ds => defs ++ ds
  | none => defs

/-- Define flattening inside `Leaf::from_config` (main.rs lines 140-148):
base defines plus, for every enabled resolved feature in order, that
feature's define list. -/
def flattenDefines (config : TeaConfig) (features : List Feature) :
    List (String × Option String) :=
  (features.filter fun f => f.enabled).foldl (defineStep config)
    config.defines.base

/-- One step of the library flattening loop (main.rs lines 151-155). -/
def libraryStep (config : TeaConfig) (libs : List String) (f : Feature) :
    List String :=
  match config.libraries.features.lookup f.name with
  | some ls => libs ++ ls
  | none => libs

/-- Library flattening inside `Leaf::from_config` (main.rs lines 150-155). -/
def flattenLibraries (config : TeaConfig) (features : List Feature) :
    List String :=
  (features.filter fun f => f.enabled).foldl (libraryStep config)
    config.libraries.base

/-- `Leaf` (main.rs lines 79-87): a resolved build node. -/
inductive Leaf where
  | mk (config : TeaConfig) (dependencies : List Leaf)
      (features : List Feature) (path : FsPath)
      (defines : List (String × Option String)) (libraries : List String)

def Leaf.config : Leaf → TeaConfig
  | .mk c _ _ _ _ _ => c

def Leaf.dependencies : Leaf → List Leaf
  | .mk _ d _ _ _ _ => d

def Leaf.features : Leaf → List Feature
  | .mk _ _ f _ _ _ => f

def Leaf.path : Leaf → FsPath
  | .mk _ _ _ p _ _ => p

def Leaf.defines : Leaf → List (String × Option String)
  | .mk _ _ _ _ d _ => d

def Leaf.libraries : Leaf → List String
  | .mk _ _ _ _ _ l => l

/-- The recursive dependency construction of `Leaf::from_config` (main.rs
lines 121-138), for one effective dependency list.  `build` is the
recursive call; `env` is the filesystem: it maps a directory to its parsed
manifest (`load_config`, which aborts the build when the manifest is
missing, hence `none`).  A declaration without a path is the
`expect`-panic of line 129, hence `none`. -/
def fromConfigDeps (os : String) (env : FsPath → Option TeaConfig)
    (build : TeaConfig → List String → FsPath → Option Leaf) :
    List Dependency → FsPath → Option (List Leaf)
  | [], _ => some []
  | d :: ds, path =>
    match d.path with
    | none => none
    | some p =>
      match env (path ++ p) with
      | none => none
      | some depConfig =>
        match build depConfig (addDefaultFeatures os d.features) (path ++ p) with
        | none => none
        | some child =>
          match fromConfigDeps os env build ds path with
          | none => none
          | some rest => some (child :: rest)

/-- `Leaf::from_config` (main.rs lines 90-165), with a fuel parameter
bounding the recursion depth (the Rust code recurses on the filesystem
without any cycle detection; `none` for exhausted fuel models a
nonterminating run). -/
def fromConfig (os : String) (env : FsPath → Option TeaConfig) :
    Nat → TeaConfig → List String → FsPath → Option Leaf
  | 0 => fun _ _ _ => none
  | fuel + 1 => fun config enabledFeatures path =>
    match fromConfigDeps os env (fromConfig os env fuel)
        (effectiveDeps config enabledFeatures) path with
    | none => none
    | some children =>
      some (Leaf.mk config children
        (resolveFeatures config.package.features enabledFeatures) path
        (flattenDefines config (resolveFeatures config.package.features enabledFeatures))
        (flattenLibraries config (resolveFeatures config.package.features enabledFeatures)))

/-! ### Helper lemmas about the resolution functions -/

theorem foldl_append_of_step {α β : Type} {g : List β → α → List β}
    {h : α → List β} (hg : ∀ acc x, g acc x = acc ++ h x) :
    ∀ (l : List α) (init : List β),
      l.foldl g init = init ++ l.flatMap h := by
  intro l
  induction l with
  | nil => intro init; simp
  | cons x xs ih =>
    intro init
    simp only [List.foldl_cons, List.flatMap_cons, hg, ih]
    simp [List.append_assoc]

theorem depStep_eq (config : TeaConfig) (deps : List Dependency)
    (feature : String) :
    depStep config deps feature
      = deps ++ (config.dependencies.features.lookup feature).getD [] := by
  unfold depStep
  cases config.dependencies.features.lookup feature <;> simp

theorem defineStep_eq (config : TeaConfig) (defs : List (String × Option String))
    (f : Feature) :
    defineStep config defs f
      = defs ++ (config.defines.features.lookup f.name).getD [] := by
  unfold defineStep
  cases config.defines.features.lookup f.name <;> simp

theorem libraryStep_eq (config : TeaConfig) (libs : List String) (f : Feature) :
    libraryStep config libs f
      = libs ++ (config.libraries.features.lookup f.name).getD [] := by
  unfold libraryStep
  cases config.libraries.features.lookup f.name <;> simp

theorem effectiveDeps_eq (config : TeaConfig) (enabledFeatures : List String) :
    effectiveDeps config enabledFeatures
      = config.dependencies.base
        ++ enabledFeatures.flatMap
            (fun f => (config.dependencies.features.lookup f).getD []) := by
  unfold effectiveDeps
  exact foldl_append_of_step (depStep_eq config) _ _

theorem flattenDefines_eq (config : TeaConfig) (features : List Feature) :
    flattenDefines config features
      = config.defines.base
        ++ (features.filter fun f => f.enabled).flatMap
            (fun f => (config.defines.features.lookup f.name).getD []) := by
  unfold flattenDefines
  exact foldl_append_of_step (defineStep_eq config) _ _

theorem flattenLibraries_eq (config : TeaConfig) (features : List Feature) :
    flattenLibraries config features
      = config.libraries.base
        ++ (features.filter fun f => f.enabled).flatMap
            (fun f => (config.libraries.features.lookup f.name).getD []) := by
  unfold flattenLibraries
  exact foldl_append_of_step (libraryStep_eq config) _ _

theorem resolveFeatures_map_name (declared enabledFeatures : List String) :
    (resolveFeatures declared enabledFeatures).map Feature.name
      = BASE_FEATURES ++ declared := by
  unfold resolveFeatures
  rw [List.map_map]
  have h : (Feature.name ∘ fun n =>
      if enabledFeatures.contains n then ({ name := n, enabled := true } : Feature)
      else { name := n, enabled := false }) = id := by
    funext n
    by_cases hc : n ∈ enabledFeatures <;> simp [hc]
  rw [h, List.map_id]

theorem resolveFeatures_mem {f : Feature} {declared enabledFeatures : List String}
    (h : f ∈ resolveFeatures declared enabledFeatures) :
    f.name ∈ BASE_FEATURES ++ declared
      ∧ (f.enabled = true ↔ f.name ∈ enabledFeatures) := by
  unfold resolveFeatures at h
  rcases List.mem_map.mp h with ⟨n, hn, hf⟩
  by_cases hc : n ∈ enabledFeatures
  · have : f = { name := n, enabled := true } := by
      rw [← hf]; simp [hc]
    subst this
    exact ⟨hn, by simp [hc]⟩
  · have : f = { name := n, enabled := false } := by
      rw [← hf]; simp [hc]
    subst this
    exact ⟨hn, by simp [hc]⟩

theorem resolveFeatures_mem_of_name {n : String}
    {declared enabledFeatures : List String}
    (hn : n ∈ BASE_FEATURES ++ declared) :
    (if enabledFeatures.contains n then ({ name := n, enabled := true } : Feature)
      else { name := n, enabled := false })
      ∈ resolveFeatures declared enabledFeatures := by
  unfold resolveFeatures
  exact List.mem_map.mpr ⟨n, hn, rfl⟩

theorem fromConfig_some {os : String} {env : FsPath → Option TeaConfig}
    {fuel : Nat} {config : TeaConfig} {enabled : List String} {path : FsPath}
    {leaf : Leaf}
    (h : fromConfig os env fuel config enabled path = some leaf) :
    ∃ fuel2 children, fuel = fuel2 + 1
      ∧ fromConfigDeps os env (fromConfig os env fuel2)
          (effectiveDeps config enabled) path = some children
      ∧ leaf = Leaf.mk config children
          (resolveFeatures config.package.features enabled) path
          (flattenDefines config (resolveFeatures config.package.features enabled))
          (flattenLibraries config (resolveFeatures config.package.features enabled)) := by
  cases fuel with
  | zero => simp [fromConfig] at h
  | succ f =>
    refine ⟨f, ?_⟩
    simp only [fromConfig] at h
    cases hd : fromConfigDeps os env (fromConfig os env f)
        (effectiveDeps config enabled) path with
    | none => rw [hd] at h; simp at h
    | some cs =>
      rw [hd] at h
      simp only [Option.some.injEq] at h
      exact ⟨cs, rfl, rfl, h.symm⟩

/-! ### Conditional source selection (`Leaf::compile`, main.rs lines 185-209) -/

/-- `str::split('.')` over the character list of a string: splitting on
every dot, with empty segments kept, and one empty segment for the empty
string - exactly Rust's `split(".")` semantics (executable by the kernel,
unlike `String.splitOn`). -/
def splitDotChars : List Char → List String
  | [] => [""]
  | c :: cs =>
    match splitDotChars cs with
    | [] => [""]
    | r :: rs =>
      if c = '.' then "" :: r :: rs
      else String.mk (c :: r.data) :: rs

/-- The tag of a source file: the last dot-separated component of its file
stem (`file_stem().split(".").last()`).  For a plain `stem.c` name the tag
is the whole stem. -/
def sourceTag (stem : String) : String :=
  ((splitDotChars stem.data).getLast?).getD ""

/-- The per-file selection predicate of `Leaf::compile` (main.rs lines
192-208): look the tag up among the Leaf's features; keep the file when no
feature has that name, or when the found feature is enabled. -/
def selectSource (features : List Feature) (stem : String) : Bool :=
  match features.find? (fun f => f.name == sourceTag stem) with
  | none => true
  | some f => f.enabled

theorem find?_name_of_nodup (features : List Feature) (t : String)
    (hnd : (features.map Feature.name).Nodup) (f : Feature)
    (hf : f ∈ features) (heq : f.name = t) :
    features.find? (fun g => g.name == t) = some f := by
  induction features with
  | nil => cases hf
  | cons a as ih =>
    simp only [List.map_cons, List.nodup_cons] at hnd
    rcases List.mem_cons.mp hf with h1 | h1
    · subst h1
      rw [List.find?_cons_of_pos]
      simp [heq]
    · have hane : (a.name == t) = false := by
        apply beq_eq_false_iff_ne.mpr
        intro hat
        exact hnd.1 (List.mem_map.mpr ⟨f, h1, heq.trans hat.symm⟩)
      rw [List.find?_cons_of_neg _ (by simp [hane])]
      exact ih hnd.2 h1

/-! ### C1 -/

/-- C1: for every package and requested feature set, feature resolution
produces exactly one record per name in the universe
`BASE_FEATURES ++ declared` (one record per universe name when that list
has no duplicate names, which the data model guarantees: declared names
are package-specific and disjoint from the platform names), each enabled
iff its name is requested; no record for any name outside the universe
exists, so no unknown requested name is ever enabled; and
`Leaf::from_config` stores exactly this resolution in the Leaf. -/
theorem c1_feature_resolution (declared requested : List String)
    (h : (BASE_FEATURES ++ declared).Nodup) :
    ((resolveFeatures declared requested).map Feature.name
        = BASE_FEATURES ++ declared)
    ∧ (∀ f ∈ resolveFeatures declared requested,
        f.enabled = true ↔ f.name ∈ requested)
    ∧ (∀ n ∈ BASE_FEATURES ++ declared,
        ((resolveFeatures declared requested).filter
            (fun f => f.name == n)).length = 1)
    ∧ (∀ n, n ∉ BASE_FEATURES ++ declared →
        ∀ f ∈ resolveFeatures declared requested, f.name ≠ n)
    ∧ (∀ os env fuel config enabled path leaf,
        fromConfig os env fuel config enabled path = some leaf →
        leaf.features = resolveFeatures config.package.features enabled) := by
  refine ⟨resolveFeatures_map_name declared requested,
    fun f hf => (resolveFeatures_mem hf).2, ?_, ?_, ?_⟩
  · intro n hn
    rw [← List.countP_eq_length_filter]
    have hmap := resolveFeatures_map_name declared requested
    have h1 : (resolveFeatures declared requested).countP (fun f => f.name == n)
        = ((resolveFeatures declared requested).map Feature.name).countP
            (fun s => s == n) := by
      rw [List.countP_map]
      rfl
    rw [h1, hmap]
    exact List.count_eq_one_of_mem h hn
  · intro n hn f hf hfn
    exact hn (hfn ▸ (resolveFeatures_mem hf).1)
  · intro os env fuel config enabled path leaf hl
    rcases fromConfig_some hl with ⟨fuel2, children, _, _, hleaf⟩
    rw [hleaf]
    rfl

theorem c1_witness :
    (BASE_FEATURES ++ ["x"]).Nodup
    ∧ (resolveFeatures ["x"] ["x", "nope"]).map Feature.name
        = BASE_FEATURES ++ ["x"] :=
  ⟨by decide, (c1_feature_resolution ["x"] ["x", "nope"] (by decide)).1⟩

/-! ### C2 -/

/-- C2 counterexample: a plain `x.c` file (no dot inside the stem) whose
stem names the declared-but-disabled feature `x` is NOT selected, although
the claim says a file with no tag is unconditionally included regardless of
whether its stem coincides with a feature name.  The feature set is the one
`Leaf::from_config` resolves for declared features `["x"]` on a linux host
with no requested features. -/
theorem c2_counterexample :
    selectSource (resolveFeatures ["x"] ["linux"]) "x" = false := by decide

/-- C2 (amended): the tag of a file is the LAST dot-separated component of
its stem - for a plain `stem.ext` name the tag is the whole stem, so such a
file is gated like any tagged file whenever its stem names a known feature.
A file whose tag names no known Feature is unconditionally selected; a file
whose tag names a known Feature (with feature names unique, as resolution
produces them) is selected iff that Feature is enabled.  In particular with
declared feature `x` enabled and no feature `y` declared, `foo.c`,
`foo.x.c` and `foo.y.c` are all selected. -/
theorem c2_source_selection (features : List Feature) (stem : String) :
    ((∀ f ∈ features, f.name ≠ sourceTag stem) →
        selectSource features stem = true)
    ∧ ((features.map Feature.name).Nodup →
        ∀ f ∈ features, f.name = sourceTag stem →
          selectSource features stem = f.enabled)
    ∧ selectSource (resolveFeatures ["x"] ["x", "linux"]) "foo" = true
    ∧ selectSource (resolveFeatures ["x"] ["x", "linux"]) "foo.x" = true
    ∧ selectSource (resolveFeatures ["x"] ["x", "linux"]) "foo.y" = true := by
  refine ⟨?_, ?_, by decide, by decide, by decide⟩
  · intro h
    unfold selectSource
    rw [List.find?_eq_none.mpr]
    intro f hf
    simp [h f hf]
  · intro hnd f hf heq
    unfold selectSource
    rw [find?_name_of_nodup features _ hnd f hf heq]

theorem c2_witness :
    (∀ f ∈ ([] : List Feature), f.name ≠ sourceTag "a")
    ∧ selectSource [] "a" = true :=
  ⟨by simp, (c2_source_selection [] "a").1 (by simp)⟩

/-! ### C3 -/

/-- Dependency declarations used by the C3 counterexample. -/
def depA : Dependency := { name := "depA", path := some ["a"], features := [] }

def depB : Dependency := { name := "depB", path := some ["b"], features := [] }

/-- A manifest declaring features `a` then `b` (in that order), with one
per-feature dependency each. -/
def cfgOrder : TeaConfig :=
  { package := { name := "p", version := "0.1.0", features := ["a", "b"] }
    dependencies := { base := [], features := [("a", [depA]), ("b", [depB])] }
    defines := { base := [], features := [] }
    libraries := { base := [], features := [] } }

/-- Dependency flattening as the spec sentence words it: for every feature
name present in the enabled set taken in feature-declaration order and
exactly once per enabled feature, append that feature's list. -/
def specDeclOrderDeps (config : TeaConfig) (enabledFeatures : List String) :
    List Dependency :=
  config.dependencies.base
    ++ (BASE_FEATURES ++ config.package.features).flatMap
        (fun f =>
          if enabledFeatures.contains f then
            (config.dependencies.features.lookup f).getD []
          else [])

/-- C3 counterexample: with features declared in order `a`, `b` and the
enabled list `["b", "a"]`, the code appends `b`'s dependencies before
`a`'s (enabled-list order), not in feature-declaration order as the claim
states. -/
theorem c3_counterexample :
    effectiveDeps cfgOrder ["b", "a"] ≠ specDeclOrderDeps cfgOrder ["b", "a"] := by
  decide

/-- C3 (amended): the effective dependency list is the base list followed
by, for every entry of the `enabled_features` list in the order of that
list and once per occurrence, the dependency list associated with that
feature name (empty when the manifest has none).  Iteration order is the
enabled list (the depender's request order, platform feature last), not
feature-declaration order, and a name occurring twice in the enabled list
appends its dependency list twice. -/
theorem c3_dependency_flattening :
    (∀ (config : TeaConfig) (enabledFeatures : List String),
        effectiveDeps config enabledFeatures
          = config.dependencies.base
            ++ enabledFeatures.flatMap
                (fun f => (config.dependencies.features.lookup f).getD []))
    ∧ effectiveDeps cfgOrder ["b", "a"] = [depB, depA]
    ∧ effectiveDeps cfgOrder ["a", "a"] = [depA, depA] :=
  ⟨effectiveDeps_eq, by decide, by decide⟩

/-! ### C4 -/

theorem fromConfigDeps_forall₂ (os : String) (env : FsPath → Option TeaConfig)
    (build : TeaConfig → List String → FsPath → Option Leaf) :
    ∀ (ds : List Dependency) (path : FsPath) (cs : List Leaf),
      fromConfigDeps os env build ds path = some cs →
      List.Forall₂ (fun d c => ∃ p depConfig,
          d.path = some p ∧ env (path ++ p) = some depConfig
          ∧ build depConfig (addDefaultFeatures os d.features) (path ++ p)
              = some c)
        ds cs := by
  intro ds
  induction ds with
  | nil =>
    intro path cs h
    simp only [fromConfigDeps, Option.some.injEq] at h
    subst h
    exact List.Forall₂.nil
  | cons d ds ih =>
    intro path cs h
    simp only [fromConfigDeps] at h
    cases hp : d.path with
    | none => simp only [hp] at h; exact Option.noConfusion h
    | some p =>
      simp only [hp] at h
      cases he : env (path ++ p) with
      | none => simp only [he] at h; exact Option.noConfusion h
      | some depConfig =>
        simp only [he] at h
        cases hb : build depConfig (addDefaultFeatures os d.features) (path ++ p) with
        | none => simp only [hb] at h; exact Option.noConfusion h
        | some child =>
          simp only [hb] at h
          cases hr : fromConfigDeps os env build ds path with
          | none => simp only [hr] at h; exact Option.noConfusion h
          | some rest =>
            simp only [hr, Option.some.injEq] at h
            subst h
            exact List.Forall₂.cons ⟨p, depConfig, hp, he, hb⟩ (ih path rest hr)

/-- C4: every child Leaf produced by `Leaf::from_config` for a dependency
declaration `d` is resolved with enabled-feature set exactly
`d.features ++ [host os]` (`add_default_features(&dependency.features)`):
its stored Feature set is the resolution of its own declared features
against that set, and every enabled feature of the child is named either
in the declaration's feature list or by the host platform - nothing of the
parent's own enabled set leaks in.  This holds for the children of every
`from_config` call, hence at every depth of the tree. -/
theorem c4_dependency_isolation (os : String) (env : FsPath → Option TeaConfig)
    (fuel : Nat) (config : TeaConfig) (enabled : List String) (path : FsPath)
    (leaf : Leaf)
    (h : fromConfig os env fuel config enabled path = some leaf) :
    List.Forall₂ (fun (d : Dependency) (c : Leaf) =>
        c.features = resolveFeatures c.config.package.features
            (addDefaultFeatures os d.features)
        ∧ ∀ f ∈ c.features, f.enabled = true → f.name ∈ d.features ∨ f.name = os)
      (effectiveDeps config enabled) leaf.dependencies := by
  rcases fromConfig_some h with ⟨fuel2, children, hfuel, hdeps, hleaf⟩
  have hld : leaf.dependencies = children := by rw [hleaf]; rfl
  rw [hld]
  refine List.Forall₂.imp ?_
    (fromConfigDeps_forall₂ os env (fromConfig os env fuel2) _ path children hdeps)
  intro d c hc
  rcases hc with ⟨p, depConfig, hp, he, hb⟩
  rcases fromConfig_some hb with ⟨fuel3, gch, _, _, hcleaf⟩
  have hcf : c.features = resolveFeatures depConfig.package.features
      (addDefaultFeatures os d.features) := by rw [hcleaf]; rfl
  constructor
  · rw [hcleaf]; rfl
  · intro f hf hen
    rw [hcf] at hf
    have hmem : f.name ∈ addDefaultFeatures os d.features :=
      (resolveFeatures_mem hf).2.mp hen
    simp only [addDefaultFeatures, List.mem_append, List.mem_singleton] at hmem
    exact hmem

/-- Manifest of the dependency used by the C4 witness: it declares the
features `z` and `w`. -/
def cfgChild : TeaConfig :=
  { package := { name := "d", version := "0.1.0", features := ["z", "w"] }
    dependencies := { base := [], features := [] }
    defines := { base := [], features := [] }
    libraries := { base := [], features := [] } }

/-- The parent's dependency declaration: request only feature `z`. -/
def depDecl : Dependency := { name := "d", path := some ["dep"], features := ["z"] }

/-- Root manifest of the C4 witness: declares feature `w` and one base
dependency. -/
def cfgParent : TeaConfig :=
  { package := { name := "p", version := "0.1.0", features := ["w"] }
    dependencies := { base := [depDecl], features := [] }
    defines := { base := [], features := [] }
    libraries := { base := [], features := [] } }

/-- Filesystem of the C4 witness. -/
def envC4 : FsPath → Option TeaConfig :=
  fun p => if p = ["dep"] then some cfgChild else none

/-- The Leaf the C4 witness scenario resolves to: although the parent has
`w` enabled, the child sees `w` disabled (only `z` and the platform are
enabled for it). -/
def leafChild : Leaf :=
  Leaf.mk cfgChild []
    [⟨"windows", false⟩, ⟨"linux", true⟩, ⟨"z", true⟩, ⟨"w", false⟩]
    ["dep"] [] []

def leafParent : Leaf :=
  Leaf.mk cfgParent [leafChild]
    [⟨"windows", false⟩, ⟨"linux", true⟩, ⟨"w", true⟩] [] [] []

theorem c4_witness :
    fromConfig "linux" envC4 2 cfgParent ["w", "linux"] [] = some leafParent
    ∧ List.Forall₂ (fun (d : Dependency) (c : Leaf) =>
        c.features = resolveFeatures c.config.package.features
            (addDefaultFeatures "linux" d.features)
        ∧ ∀ f ∈ c.features, f.enabled = true →
            f.name ∈ d.features ∨ f.name = "linux")
      (effectiveDeps cfgParent ["w", "linux"]) leafParent.dependencies :=
  ⟨rfl, c4_dependency_isolation "linux" envC4 2 cfgParent ["w", "linux"] []
    leafParent rfl⟩

/-! ### C5 -/

/-- Manifest of the C5 example: declared features `x`, a base define
`("A", no value)` and a define `("B", "1")` under feature `x`. -/
def cfgGate : TeaConfig :=
  { package := { name := "p", version := "0.1.0", features := ["x"] }
    dependencies := { base := [], features := [] }
    defines := { base := [("A", none)], features := [("x", [("B", some "1")])] }
    libraries := { base := [], features := [] } }

/-- C5: flattened Defines and Libraries are the base list followed by, for
each enabled feature of the Leaf's own resolved Feature set in order, that
feature's list; `from_config` stores exactly these flattenings, gated by
the resolution of step 1.  On the concrete example manifest `cfgGate`,
resolving on a linux host with `x` disabled yields defines `A` only, and
with `x` enabled yields `A` then `B=1`. -/
theorem c5_feature_gating :
    (∀ (config : TeaConfig) (features : List Feature),
        flattenDefines config features
          = config.defines.base
            ++ (features.filter fun f => f.enabled).flatMap
                (fun f => (config.defines.features.lookup f.name).getD []))
    ∧ (∀ (config : TeaConfig) (features : List Feature),
        flattenLibraries config features
          = config.libraries.base
            ++ (features.filter fun f => f.enabled).flatMap
                (fun f => (config.libraries.features.lookup f.name).getD []))
    ∧ (∀ os env fuel config enabled path leaf,
        fromConfig os env fuel config enabled path = some leaf →
          leaf.defines = flattenDefines config
              (resolveFeatures config.package.features enabled)
          ∧ leaf.libraries = flattenLibraries config
              (resolveFeatures config.package.features enabled))
    ∧ (fromConfig "linux" (fun _ => none) 1 cfgGate ["linux"] []).map Leaf.defines
        = some [("A", none)]
    ∧ (fromConfig "linux" (fun _ => none) 1 cfgGate ["x", "linux"] []).map Leaf.defines
        = some [("A", none), ("B", some "1")] := by
  refine ⟨flattenDefines_eq, flattenLibraries_eq, ?_, rfl, rfl⟩
  intro os env fuel config enabled path leaf h
  rcases fromConfig_some h with ⟨fuel2, children, _, _, hleaf⟩
  exact ⟨by rw [hleaf]; rfl, by rw [hleaf]; rfl⟩

theorem c5_witness :
    (fromConfig "linux" (fun _ => none) 1 cfgGate ["x", "linux"] []).map
        Leaf.defines
      = some [("A", none), ("B", some "1")] :=
  c5_feature_gating.2.2.2.2

/-! ### Build orchestration (`Leaf::compile` / `brew`, main.rs lines
180-296; `Compiler::compile`, compiler.rs lines 57-117)

The external C toolchain is an oracle `tc`: for a Leaf directory and a
selected source stem it either succeeds or fails with a captured
stdout/stderr text.  The filesystem walk of `Leaf::compile` is an oracle
`srcs` giving the stems of the `.c` files under a Leaf's `src` directory.
A build produces a trace of events; a failing compilation aborts the whole
run with the failing stem and its captured output (the Rust code panics,
so nothing after the failure happens). -/

/-- Outcome of one toolchain invocation: success, or failure with the
captured stdout/stderr. -/
inductive ToolResult where
  | ok
  | fail (output : String)
  deriving DecidableEq

/-- Observable build events: one source compiled, one Leaf archived into a
static library, the final binary linked. -/
inductive Event where
  | compiled (pkg : String) (src : String)
  | archived (pkg : String)
  | linkedBin (pkg : String)
  deriving DecidableEq

/-- The per-source loop of `Compiler::compile` (compiler.rs lines 60-107):
each selected source is compiled; a nonzero exit aborts the call carrying
the captured output of the failing invocation. -/
def compileSources (tc : FsPath → String → ToolResult) (path : FsPath)
    (pkg : String) : List String → Except (String × String) (List Event)
  | [] => .ok []
  | stem :: stems =>
    match tc path stem with
    | .fail out => .error (stem, out)
    | .ok =>
      match compileSources tc path pkg stems with
      | .error e => .error e
      | .ok es => .ok (Event.compiled pkg stem :: es)

mutual

/-- `Leaf::compile` (main.rs lines 180-253): recursively compile every
child Leaf first, then compile this Leaf's selected sources and archive it
as a static library. -/
def compileLeaf (tc : FsPath → String → ToolResult)
    (srcs : FsPath → List String) :
    Leaf → Except (String × String) (List Event)
  | .mk config deps features path _ _ =>
    match compileLeaves tc srcs deps with
    | .error e => .error e
    | .ok tdeps =>
      match compileSources tc path config.package.name
          ((srcs path).filter fun stem => selectSource features stem) with
      | .error e => .error e
      | .ok tself =>
        .ok (tdeps ++ tself ++ [Event.archived config.package.name])

/-- The `for_each` over `self.dependencies` (main.rs lines 181-183). -/
def compileLeaves (tc : FsPath → String → ToolResult)
    (srcs : FsPath → List String) :
    List Leaf → Except (String × String) (List Event)
  | [] => .ok []
  | l :: ls =>
    match compileLeaf tc srcs l with
    | .error e => .error e
    | .ok t =>
      match compileLeaves tc srcs ls with
      | .error e => .error e
      | .ok ts => .ok (t ++ ts)

end

/-- `brew` (main.rs lines 286-296): compile the whole tree (every Leaf is
archived), then link the root binary. -/
def brewTrace (tc : FsPath → String → ToolResult)
    (srcs : FsPath → List String) (leaf : Leaf) :
    Except (String × String) (List Event) :=
  match compileLeaf tc srcs leaf with
  | .error e => .error e
  | .ok t => .ok (t ++ [Event.linkedBin leaf.config.package.name])

theorem compileSources_ok (tc : FsPath → String → ToolResult) (path : FsPath)
    (pkg : String) :
    ∀ (stems : List String) (es : List Event),
      compileSources tc path pkg stems = .ok es →
      es = stems.map (Event.compiled pkg) := by
  intro stems
  induction stems with
  | nil =>
    intro es h
    simp only [compileSources, Except.ok.injEq] at h
    simp [← h]
  | cons s ss ih =>
    intro es h
    simp only [compileSources] at h
    cases ht : tc path s with
    | fail out => simp only [ht] at h; exact Except.noConfusion h
    | ok =>
      simp only [ht] at h
      cases hr : compileSources tc path pkg ss with
      | error e => simp only [hr] at h; exact Except.noConfusion h
      | ok es2 =>
        simp only [hr, Except.ok.injEq] at h
        rw [← h, ih es2 hr]
        simp

theorem compileLeaf_ok_decomp (tc : FsPath → String → ToolResult)
    (srcs : FsPath → List String) (config : TeaConfig) (deps : List Leaf)
    (features : List Feature) (path : FsPath)
    (dfs : List (String × Option String)) (libs : List String)
    (t : List Event)
    (h : compileLeaf tc srcs (Leaf.mk config deps features path dfs libs)
        = .ok t) :
    ∃ tdeps, compileLeaves tc srcs deps = .ok tdeps
      ∧ t = tdeps
          ++ ((srcs path).filter fun stem => selectSource features stem).map
              (Event.compiled config.package.name)
          ++ [Event.archived config.package.name] := by
  simp only [compileLeaf] at h
  cases hd : compileLeaves tc srcs deps with
  | error e => simp only [hd] at h; exact Except.noConfusion h
  | ok tdeps =>
    simp only [hd] at h
    cases hs : compileSources tc path config.package.name
        ((srcs path).filter fun stem => selectSource features stem) with
    | error e => simp only [hs] at h; exact Except.noConfusion h
    | ok tself =>
      simp only [hs, Except.ok.injEq] at h
      exact ⟨tdeps, rfl,
        by rw [← h, compileSources_ok tc path _ _ tself hs]⟩

theorem compileLeaves_singleton (tc : FsPath → String → ToolResult)
    (srcs : FsPath → List String) (l : Leaf) (t : List Event)
    (h : compileLeaves tc srcs [l] = .ok t) :
    compileLeaf tc srcs l = .ok t := by
  simp only [compileLeaves] at h
  cases hl : compileLeaf tc srcs l with
  | error e => simp only [hl] at h; exact Except.noConfusion h
  | ok t1 =>
    simp only [hl, Except.ok.injEq] at h
    rw [← h]
    simp [hl]

theorem brewTrace_ok_decomp (tc : FsPath → String → ToolResult)
    (srcs : FsPath → List String) (leaf : Leaf) (t : List Event)
    (h : brewTrace tc srcs leaf = .ok t) :
    ∃ t0, compileLeaf tc srcs leaf = .ok t0
      ∧ t = t0 ++ [Event.linkedBin leaf.config.package.name] := by
  unfold brewTrace at h
  cases hl : compileLeaf tc srcs leaf with
  | error e => simp only [hl] at h; exact Except.noConfusion h
  | ok t0 =>
    simp only [hl, Except.ok.injEq] at h
    exact ⟨t0, rfl, h.symm⟩

/-! ### C6 -/

/-- C6: the build traversal is depth-first: a Leaf's own compile events
come after the complete traces of all of its children, which each end in
that child's archive event.  For a chain A depends on B depends on C the
full `brew` trace is: C's compiles, C's archive, B's compiles, B's
archive, A's compiles, A's archive, A's binary link - so C's archive
precedes every compile of B, and B's archive precedes A's link. -/
theorem c6_build_ordering (tc : FsPath → String → ToolResult)
    (srcs : FsPath → List String) :
    (∀ config deps features path dfs libs t,
        compileLeaf tc srcs (Leaf.mk config deps features path dfs libs)
          = .ok t →
        ∃ tdeps, compileLeaves tc srcs deps = .ok tdeps
          ∧ t = tdeps
              ++ ((srcs path).filter fun stem => selectSource features stem).map
                  (Event.compiled config.package.name)
              ++ [Event.archived config.package.name])
    ∧ (∀ (ca cb cc : TeaConfig) (fa fb fc : List Feature)
        (pa pb pc : FsPath) (da db dc : List (String × Option String))
        (la lb lc : List String) (t : List Event),
        brewTrace tc srcs
            (Leaf.mk ca [Leaf.mk cb [Leaf.mk cc [] fc pc dc lc] fb pb db lb]
              fa pa da la)
          = .ok t →
        t = ((srcs pc).filter fun s => selectSource fc s).map
              (Event.compiled cc.package.name)
            ++ [Event.archived cc.package.name]
            ++ ((srcs pb).filter fun s => selectSource fb s).map
                (Event.compiled cb.package.name)
            ++ [Event.archived cb.package.name]
            ++ ((srcs pa).filter fun s => selectSource fa s).map
                (Event.compiled ca.package.name)
            ++ [Event.archived ca.package.name,
                Event.linkedBin ca.package.name]) := by
  constructor
  · intro config deps features path dfs libs t h
    exact compileLeaf_ok_decomp tc srcs config deps features path dfs libs t h
  · intro ca cb cc fa fb fc pa pb pc da db dc la lb lc t h
    rcases brewTrace_ok_decomp tc srcs _ t h with ⟨t0, hA, ht⟩
    rcases compileLeaf_ok_decomp tc srcs ca _ fa pa da la t0 hA
      with ⟨tdA, hdA, htA⟩
    have hB := compileLeaves_singleton tc srcs _ tdA hdA
    rcases compileLeaf_ok_decomp tc srcs cb _ fb pb db lb tdA hB
      with ⟨tdB, hdB, htB⟩
    have hC := compileLeaves_singleton tc srcs _ tdB hdB
    rcases compileLeaf_ok_decomp tc srcs cc _ fc pc dc lc tdB hC
      with ⟨tdC, hdC, htC⟩
    have hnil : tdC = [] := by
      simp only [compileLeaves, Except.ok.injEq] at hdC
      exact hdC.symm
    subst hnil
    subst htC
    subst htB
    subst htA
    subst ht
    simp [List.append_assoc, Leaf.config, Leaf.dependencies]

/-- Manifests for the C6 witness chain. -/
def cfgA : TeaConfig :=
  { package := { name := "a", version := "0.1.0", features := [] }
    dependencies := { base := [], features := [] }
    defines := { base := [], features := [] }
    libraries := { base := [], features := [] } }

def cfgB : TeaConfig :=
  { package := { name := "b", version := "0.1.0", features := [] }
    dependencies := { base := [], features := [] }
    defines := { base := [], features := [] }
    libraries := { base := [], features := [] } }

def cfgC : TeaConfig :=
  { package := { name := "c", version := "0.1.0", features := [] }
    dependencies := { base := [], features := [] }
    defines := { base := [], features := [] }
    libraries := { base := [], features := [] } }

/-- Toolchain oracle that always succeeds. -/
def tcAllOk : FsPath → String → ToolResult := fun _ _ => ToolResult.ok

/-- Source walk for the C6 witness: one source per chain directory. -/
def srcsChain : FsPath → List String := fun p =>
  if p = ["pa"] then ["a1"]
  else if p = ["pb"] then ["b1"]
  else if p = ["pc"] then ["c1"]
  else []

/-- The A depends on B depends on C chain of the C6 witness. -/
def chainLeaf : Leaf :=
  Leaf.mk cfgA
    [Leaf.mk cfgB [Leaf.mk cfgC [] [] ["pc"] [] []] [] ["pb"] [] []]
    [] ["pa"] [] []

theorem c6_witness :
    brewTrace tcAllOk srcsChain chainLeaf
      = .ok [Event.compiled "c" "c1", Event.archived "c",
          Event.compiled "b" "b1", Event.archived "b",
          Event.compiled "a" "a1", Event.archived "a",
          Event.linkedBin "a"]
    ∧ [Event.compiled "c" "c1", Event.archived "c",
        Event.compiled "b" "b1", Event.archived "b",
        Event.compiled "a" "a1", Event.archived "a", Event.linkedBin "a"]
      = ((srcsChain ["pc"]).filter fun s => selectSource [] s).map
            (Event.compiled cfgC.package.name)
          ++ [Event.archived cfgC.package.name]
          ++ ((srcsChain ["pb"]).filter fun s => selectSource [] s).map
              (Event.compiled cfgB.package.name)
          ++ [Event.archived cfgB.package.name]
          ++ ((srcsChain ["pa"]).filter fun s => selectSource [] s).map
              (Event.compiled cfgA.package.name)
          ++ [Event.archived cfgA.package.name,
              Event.linkedBin cfgA.package.name] :=
  ⟨rfl, (c6_build_ordering tcAllOk srcsChain).2 cfgA cfgB cfgC [] [] []
    ["pa"] ["pb"] ["pc"] [] [] [] [] [] [] _ rfl⟩

/-! ### C7 -/

theorem compileSources_fail (tc : FsPath → String → ToolResult)
    (path : FsPath) (pkg : String) :
    ∀ (stems : List String),
      (∃ s ∈ stems, ∃ out, tc path s = ToolResult.fail out) →
      ∃ s out, s ∈ stems ∧ tc path s = ToolResult.fail out
        ∧ compileSources tc path pkg stems = .error (s, out) := by
  intro stems
  induction stems with
  | nil => rintro ⟨s, hs, _⟩; cases hs
  | cons a ss ih =>
    rintro ⟨s, hs, out, hout⟩
    cases ht : tc path a with
    | fail o =>
      exact ⟨a, o, List.mem_cons_self a ss, ht,
        by simp only [compileSources, ht]⟩
    | ok =>
      have hsne : s ≠ a := by
        intro he
        rw [he, ht] at hout
        exact ToolResult.noConfusion hout
      have hmem : s ∈ ss := by
        rcases List.mem_cons.mp hs with h1 | h1
        · exact absurd h1 hsne
        · exact h1
      rcases ih ⟨s, hmem, out, hout⟩ with ⟨s2, out2, hm2, ht2, heq⟩
      refine ⟨s2, out2, List.mem_cons_of_mem a hm2, ht2, ?_⟩
      simp only [compileSources, ht, heq]

theorem compileLeaves_member_error (tc : FsPath → String → ToolResult)
    (srcs : FsPath → List String) (l : Leaf) (e : String × String)
    (hl : compileLeaf tc srcs l = .error e) :
    ∀ (ls : List Leaf), l ∈ ls → ∀ t, compileLeaves tc srcs ls ≠ .ok t := by
  intro ls
  induction ls with
  | nil => intro hm; cases hm
  | cons a as ih =>
    intro hm t hok
    simp only [compileLeaves] at hok
    rcases List.mem_cons.mp hm with h1 | h1
    · rw [← h1, hl] at hok
      exact Except.noConfusion hok
    · cases ha : compileLeaf tc srcs a with
      | error e2 => simp only [ha] at hok; exact Except.noConfusion hok
      | ok t1 =>
        simp only [ha] at hok
        cases has : compileLeaves tc srcs as with
        | error e2 => simp only [has] at hok; exact Except.noConfusion hok
        | ok t2 => exact ih h1 t2 has

/-- C7: when the children of a Leaf build fine but one of its selected
sources fails to compile, the Leaf's build aborts with the failing stem
and the captured output of that failing invocation; its archive/link step
never runs (the result is an error, so no trace - in particular no
archive event - is produced), the whole `brew` of that Leaf fails, and any
tree whose dependency list contains the Leaf fails as well. -/
theorem c7_fail_fast (tc : FsPath → String → ToolResult)
    (srcs : FsPath → List String) (config : TeaConfig) (deps : List Leaf)
    (features : List Feature) (path : FsPath)
    (dfs : List (String × Option String)) (libs : List String)
    (hdeps : ∃ tdeps, compileLeaves tc srcs deps = .ok tdeps)
    (hfail : ∃ s ∈ (srcs path).filter (fun stem => selectSource features stem),
        ∃ out, tc path s = ToolResult.fail out) :
    ∃ s out,
      s ∈ (srcs path).filter (fun stem => selectSource features stem)
      ∧ tc path s = ToolResult.fail out
      ∧ compileLeaf tc srcs (Leaf.mk config deps features path dfs libs)
          = .error (s, out)
      ∧ brewTrace tc srcs (Leaf.mk config deps features path dfs libs)
          = .error (s, out)
      ∧ ∀ ls t, Leaf.mk config deps features path dfs libs ∈ ls →
          compileLeaves tc srcs ls ≠ .ok t := by
  rcases hdeps with ⟨tdeps, hd⟩
  rcases compileSources_fail tc path config.package.name _ hfail
    with ⟨s, out, hm, ht, hcs⟩
  have hleaf : compileLeaf tc srcs (Leaf.mk config deps features path dfs libs)
      = .error (s, out) := by
    simp only [compileLeaf, hd, hcs]
  refine ⟨s, out, hm, ht, hleaf, ?_, ?_⟩
  · unfold brewTrace
    simp only [hleaf]
  · intro ls t hmem
    exact compileLeaves_member_error tc srcs _ _ hleaf ls hmem t

/-- Toolchain oracle for the C7 witness: the stem `bad` fails with
captured output `boom`. -/
def tcOneBad : FsPath → String → ToolResult := fun _ s =>
  if s = "bad" then ToolResult.fail "boom" else ToolResult.ok

/-- Source walk for the C7 witness. -/
def srcsBad : FsPath → List String := fun p => if p = [] then ["bad"] else []

theorem c7_witness :
    ∃ s out,
      s ∈ (srcsBad []).filter (fun stem => selectSource [] stem)
      ∧ tcOneBad [] s = ToolResult.fail out
      ∧ compileLeaf tcOneBad srcsBad (Leaf.mk cfgA [] [] [] [] [])
          = .error (s, out)
      ∧ brewTrace tcOneBad srcsBad (Leaf.mk cfgA [] [] [] [] [])
          = .error (s, out)
      ∧ ∀ ls t, Leaf.mk cfgA [] [] ([] : FsPath) [] [] ∈ ls →
          compileLeaves tcOneBad srcsBad ls ≠ .ok t :=
  c7_fail_fast tcOneBad srcsBad cfgA [] [] [] [] [] ⟨[], rfl⟩
    ⟨"bad", by decide, "boom", rfl⟩

/-! ### The Compilation Engine (`compiler.rs`) and `Leaf::link` -/

/-- `cli::BrewData`: the build-profile flags. -/
structure BrewData where
  release : Bool
  debug : Bool
  deriving DecidableEq

/-- `Compiler` (compiler.rs lines 15-22). -/
structure Compiler where
  target_directory : FsPath
  compile_flags : List String
  link_flags : List String
  defines : List (String × Option String)
  objects : List FsPath
  deriving DecidableEq

/-- `Compiler::new` (compiler.rs lines 25-33): fresh state, only the math
library link flag. -/
def Compiler.new (target_directory : FsPath) : Compiler :=
  { target_directory := target_directory
    compile_flags := []
    link_flags := ["-lm"]
    defines := []
    objects := [] }

/-- `Compiler::include` (compiler.rs lines 35-37); `include` is a reserved
word in Lean, hence the name. -/
def Compiler.includeDir (c : Compiler) (path : FsPath) : Compiler :=
  { c with compile_flags := c.compile_flags ++ ["-I" ++ renderPath path] }

/-- `Compiler::add_static_library` (compiler.rs lines 39-42). -/
def Compiler.add_static_library (c : Compiler) (name : String) : Compiler :=
  { c with objects :=
      c.objects ++ [c.target_directory ++ ["lib" ++ name ++ ".a"]] }

/-- `Compiler::define` (compiler.rs lines 44-47). -/
def Compiler.define (c : Compiler) (name : String) (value : Option String) :
    Compiler :=
  { c with defines := c.defines ++ [(name, value)] }

/-- `Compiler::set_optimization_level` (compiler.rs lines 49-51). -/
def Compiler.set_optimization_level (c : Compiler) (level : Nat) : Compiler :=
  { c with compile_flags := c.compile_flags ++ ["-O" ++ toString level] }

/-- `Compiler::enable_debug_info` (compiler.rs lines 53-55). -/
def Compiler.enable_debug_info (c : Compiler) : Compiler :=
  { c with compile_flags := c.compile_flags ++ ["-g"] }

/-- Modelled from the spec: `Compiler::add_system_library` is invoked by
`Leaf::link` (main.rs line 272) but its definition does not appear in
`compiler.rs`; per the spec it appends a system-library link flag to the
link-flag list without compiling anything. -/
def Compiler.add_system_library (c : Compiler) (name : String) : Compiler :=
  { c with link_flags := c.link_flags ++ ["-l" ++ name] }

/-- `Path::with_extension("o")` applied to the last component of a path:
drop the component's extension (text after its last dot, if any) and
append `.o`. -/
def setExtOComp (s : String) : String :=
  match (splitDotChars s.data).dropLast with
  | [] => s ++ ".o"
  | parts => String.intercalate "." parts ++ ".o"

def withExtensionO : FsPath → FsPath
  | [] => []
  | [s] => [setExtOComp s]
  | s :: rest => s :: withExtensionO rest

/-- The object path of a source (compiler.rs lines 61-65):
`target_directory/objects/<source path with extension o>`. -/
def objectPath (c : Compiler) (src : FsPath) : FsPath :=
  c.target_directory ++ ["objects"] ++ withExtensionO src

/-- One `-D` argument (compiler.rs lines 69-75). -/
def renderDefineFlag : String × Option String → String
  | (n, some v) => "-D" ++ n ++ "=" ++ v
  | (n, none) => "-D" ++ n

/-- The full argument list of one `tcc` compile invocation (compiler.rs
lines 67-81): define flags, then the accumulated compile flags, then
`-c <src> -o <obj>`. -/
def compileArgs (c : Compiler) (src : FsPath) : List String :=
  c.defines.map renderDefineFlag ++ c.compile_flags
    ++ ["-c", renderPath src, "-o", renderPath (objectPath c src)]

/-- The Compiler state `Leaf::link` (main.rs lines 255-262) constructs
before compiling the generated `target/main.c` shim at line 264: a fresh
engine, plus only the profile's optimization/debug flags. -/
def linkShimCompiler (cmd : BrewData) : Compiler :=
  let c := Compiler.new ["target"]
  let c := if cmd.release then c.set_optimization_level 3 else c
  let c := if cmd.debug then c.enable_debug_info else c
  c

/-! ### C10 -/

/-- C10: the compiler used by `Leaf::link` for the generated shim carries
no defines at all and exactly the profile flags (`-O3` for release, `-g`
for debug); consequently the shim's compile invocation
`tcc <flags> -c target/main.c -o ...` contains no `-I` and no `-D`
argument - none of the Leaf's include paths, feature defines, or
flattened Defines reach the shim. -/
theorem c10_link_shim_flags (cmd : BrewData) :
    (linkShimCompiler cmd).defines = []
    ∧ (linkShimCompiler cmd).compile_flags
        = (if cmd.release then ["-O3"] else [])
          ++ (if cmd.debug then ["-g"] else [])
    ∧ compileArgs (linkShimCompiler cmd) ["target", "main.c"]
        = (if cmd.release then ["-O3"] else [])
          ++ (if cmd.debug then ["-g"] else [])
          ++ ["-c", "target/main.c", "-o", "target/objects/target/main.o"]
    ∧ ∀ a ∈ compileArgs (linkShimCompiler cmd) ["target", "main.c"],
        List.isPrefixOf ['-', 'I'] a.data = false
        ∧ List.isPrefixOf ['-', 'D'] a.data = false := by
  rcases cmd with ⟨rel, deb⟩
  cases rel <;> cases deb <;> exact ⟨rfl, rfl, rfl, by decide⟩

theorem c10_witness :
    "-O3" ∈ compileArgs (linkShimCompiler ⟨true, false⟩) ["target", "main.c"]
    ∧ List.isPrefixOf ['-', 'I'] "-O3".data = false
    ∧ List.isPrefixOf ['-', 'D'] "-O3".data = false :=
  ⟨by decide,
    (c10_link_shim_flags ⟨true, false⟩).2.2.2 "-O3" (by decide)⟩

/-! ### Entry-point / test-harness synthesis (`brew` main.rs line 292,
`pour` line 305, `sip` lines 389-396)

The generated translation units are strings; a small structural model of C
declarations (`CDecl`, `CStmt`) follows the spec's description and is
proved to render to exactly the strings the code builds. -/

/-- A statement of a generated `main` body: a call `fn();` or a
`printf("msg\n");` progress line. -/
inductive CStmt where
  | call (fn : String)
  | printfLine (msg : String)
  deriving DecidableEq

/-- A declaration of a generated translation unit: a forward declaration
`void fn();` or the `main` definition. -/
inductive CDecl where
  | forwardDecl (fn : String)
  | mainDef (body : List CStmt)
  deriving DecidableEq

def renderStmt : CStmt → String
  | .call fn => "\t" ++ fn ++ "();"
  | .printfLine msg => "\tprintf(\"" ++ msg ++ "\\n\");"

/-- `Vec::join("\n")`. -/
def joinLines : List String → String
  | [] => ""
  | [s] => s
  | s :: ss => s ++ "\n" ++ joinLines ss

def renderDecl : CDecl → String
  | .forwardDecl fn => "void " ++ fn ++ "();"
  | .mainDef body =>
    "int main() \x7b\n" ++ joinLines (body.map renderStmt) ++ "\n\x7d"

def renderUnit (decls : List CDecl) : String :=
  joinLines (decls.map renderDecl)

/-- How many times the declarations call `fn` inside `main` bodies. -/
def callCount (fn : String) (decls : List CDecl) : Nat :=
  (decls.map fun d =>
    match d with
    | CDecl.mainDef body =>
      (body.filter fun s =>
        match s with
        | CStmt.call g => g == fn
        | _ => false).length
    | _ => 0).sum

/-- The program-mode shim `brew` and `pour` write to `target/main.c`
(main.rs lines 292 and 305): the format string
`void {0}_main();\nint main() {{\n\t{0}_main();\n}}` applied to the root
package name. -/
def mainShim (name : String) : String :=
  "void " ++ name ++ "_main();\nint main() \x7b\n\t" ++ name ++ "_main();\n\x7d"

/-- The structural translation unit the spec describes for program mode:
a forward declaration of the entry symbol and a `main` whose body is the
single call of that symbol. -/
def shimUnit (name : String) : List CDecl :=
  [CDecl.forwardDecl (name ++ "_main"),
    CDecl.mainDef [CStmt.call (name ++ "_main")]]

/-! ### C8 -/

/-- C8: the synthesized program-mode translation unit renders exactly the
structural unit consisting of a forward declaration of
`<root-package-name>_main` and a `main` whose body calls that symbol
exactly once: the shim contains the forward declaration and its call count
of the entry symbol inside `main` is one. -/
theorem c8_entry_shim (name : String) :
    mainShim name = renderUnit (shimUnit name)
    ∧ callCount (name ++ "_main") (shimUnit name) = 1
    ∧ CDecl.forwardDecl (name ++ "_main") ∈ shimUnit name := by
  refine ⟨?_, ?_, by simp [shimUnit]⟩
  · apply String.ext
    simp only [mainShim, renderUnit, shimUnit, renderDecl, renderStmt,
      joinLines, List.map_cons, List.map_nil, String.data_append,
      List.append_assoc]
    rfl
  · simp [callCount, shimUnit]

theorem c8_witness :
    mainShim "app" = renderUnit (shimUnit "app")
    ∧ callCount "app_main" (shimUnit "app") = 1 :=
  ⟨(c8_entry_shim "app").1, (c8_entry_shim "app").2.1⟩

/-! ### C9 -/

/-- `str::starts_with("test_")` (main.rs line 390), over the character
list so the kernel can evaluate it. -/
def startsWithTest (s : String) : Bool :=
  List.isPrefixOf "test_".data s.data

/-- The test list of `sip` (main.rs line 390): the enumerated symbols that
begin with the fixed `test_` marker, in enumeration order. -/
def sipTests (symbols : List String) : List String :=
  symbols.filter startsWithTest

/-- The forward-declaration block of the `sip` harness (main.rs line 393). -/
def sipForward (tests : List String) : String :=
  joinLines (tests.map fun t => "void " ++ t ++ "();")

/-- One per-test block of the harness body (main.rs line 394). -/
def sipBlock (t : String) : String :=
  "\tprintf(\"Testing " ++ t ++ "\\n\");\n\t" ++ t ++ "();"

/-- The `main` body of the `sip` harness (main.rs line 394). -/
def sipBody (tests : List String) : String :=
  joinLines (tests.map sipBlock)

/-- The full harness translation unit of `sip` (main.rs line 395). -/
def sipHarness (symbols : List String) : String :=
  "#include <stdio.h>\n\n" ++ sipForward (sipTests symbols)
    ++ "\n\nint main() \x7b\n" ++ sipBody (sipTests symbols) ++ "\n\x7d"

/-- The structural statements generated per test: the progress `printf`
then the call. -/
def harnessStmts (t : String) : List CStmt :=
  [CStmt.printfLine ("Testing " ++ t), CStmt.call t]

/-- The structural harness unit the spec describes: one forward
declaration per selected symbol, then a `main` invoking them sequentially
in the same order. -/
def harnessUnit (tests : List String) : List CDecl :=
  tests.map CDecl.forwardDecl ++ [CDecl.mainDef (tests.flatMap harnessStmts)]

/-- The forward-declared function names of a unit, in order. -/
def declaredFns (decls : List CDecl) : List String :=
  decls.filterMap fun d =>
    match d with
    | CDecl.forwardDecl fn => some fn
    | _ => none

/-- The sequence of functions the unit's `main` bodies call, in order. -/
def mainCallSeq (decls : List CDecl) : List String :=
  decls.flatMap fun d =>
    match d with
    | CDecl.mainDef body =>
      body.filterMap fun s =>
        match s with
        | CStmt.call g => some g
        | _ => none
    | _ => []

theorem declaredFns_aux (b : List CStmt) : ∀ (ts : List String),
    declaredFns (ts.map CDecl.forwardDecl ++ [CDecl.mainDef b]) = ts := by
  intro ts
  induction ts with
  | nil => rfl
  | cons a as ih =>
    simp only [List.map_cons, List.cons_append, declaredFns,
      List.filterMap_cons] at ih ⊢
    rw [ih]

theorem filterMap_calls : ∀ (ts : List String),
    ((ts.flatMap harnessStmts).filterMap fun s =>
      match s with
      | CStmt.call g => some g
      | _ => none) = ts := by
  intro ts
  induction ts with
  | nil => rfl
  | cons a as ih =>
    simp only [List.flatMap_cons, harnessStmts, List.cons_append,
      List.filterMap_cons, List.nil_append]
    rw [ih]

theorem mainCallSeq_aux : ∀ (ts : List String),
    mainCallSeq (harnessUnit ts) = ts := by
  intro ts
  unfold mainCallSeq harnessUnit
  rw [List.flatMap_append]
  have h1 : (ts.map CDecl.forwardDecl).flatMap (fun d =>
      match d with
      | CDecl.mainDef body =>
        body.filterMap fun s =>
          match s with
          | CStmt.call g => some g
          | _ => none
      | _ => []) = [] := by
    induction ts with
    | nil => rfl
    | cons a as ih => simp only [List.map_cons, List.flatMap_cons, ih]; rfl
  rw [h1, List.nil_append]
  simp only [List.flatMap_cons, List.flatMap_nil, List.append_nil]
  exact filterMap_calls ts

theorem string_append_assoc (a b c : String) : a ++ b ++ c = a ++ (b ++ c) := by
  apply String.ext
  simp [String.data_append, List.append_assoc]

theorem joinLines_cons_cons (s1 s2 : String) (ss : List String) :
    joinLines (s1 :: s2 :: ss) = s1 ++ "\n" ++ joinLines (s2 :: ss) := rfl

theorem joinLines_two (x1 x2 : String) : ∀ (rest : List String),
    joinLines ((x1 ++ "\n" ++ x2) :: rest) = x1 ++ "\n" ++ joinLines (x2 :: rest) := by
  intro rest
  cases rest with
  | nil => rfl
  | cons b bs =>
    show (x1 ++ "\n" ++ x2) ++ "\n" ++ joinLines (b :: bs)
        = x1 ++ "\n" ++ (x2 ++ "\n" ++ joinLines (b :: bs))
    simp only [string_append_assoc]

theorem sipBlock_eq (t : String) :
    sipBlock t = renderStmt (CStmt.printfLine ("Testing " ++ t)) ++ "\n"
      ++ renderStmt (CStmt.call t) := by
  apply String.ext
  simp only [sipBlock, renderStmt, String.data_append, List.append_assoc]
  rfl

theorem sipBody_chunks : ∀ (as : List String) (x : String),
    joinLines (x :: as.map sipBlock)
      = joinLines (x :: (as.flatMap harnessStmts).map renderStmt) := by
  intro as
  induction as with
  | nil => intro x; rfl
  | cons a as ih =>
    intro x
    show joinLines (x :: sipBlock a :: as.map sipBlock)
        = joinLines (x :: ((a :: as).flatMap harnessStmts).map renderStmt)
    have hr : ((a :: as).flatMap harnessStmts).map renderStmt
        = renderStmt (CStmt.printfLine ("Testing " ++ a))
          :: renderStmt (CStmt.call a)
          :: (as.flatMap harnessStmts).map renderStmt := rfl
    rw [hr]
    simp only [joinLines_cons_cons]
    rw [sipBlock_eq a, joinLines_two, ih]

theorem sipBody_eq (ts : List String) :
    sipBody ts = joinLines ((ts.flatMap harnessStmts).map renderStmt) := by
  cases ts with
  | nil => rfl
  | cons a as =>
    show joinLines (sipBlock a :: as.map sipBlock)
        = joinLines (((a :: as).flatMap harnessStmts).map renderStmt)
    have hr : ((a :: as).flatMap harnessStmts).map renderStmt
        = renderStmt (CStmt.printfLine ("Testing " ++ a))
          :: renderStmt (CStmt.call a)
          :: (as.flatMap harnessStmts).map renderStmt := rfl
    rw [hr, sipBlock_eq a, joinLines_two, sipBody_chunks as]
    rw [joinLines_cons_cons]

/-- C9: the test-harness synthesizer of `sip` selects exactly the
enumerated symbols beginning with `test_`, preserving enumeration order
(the selection is a sublist); the structural harness unit declares one
forward declaration per selected symbol and its `main` calls exactly the
selected symbols in that order; the code's forward block and body render
exactly that structural unit; and an enumeration with zero matching
symbols yields the harness with an empty `main` body (a valid vacuous
translation unit, produced without any error path). -/
theorem c9_test_harness (symbols : List String) :
    (∀ t, t ∈ sipTests symbols ↔ t ∈ symbols ∧ startsWithTest t = true)
    ∧ List.Sublist (sipTests symbols) symbols
    ∧ declaredFns (harnessUnit (sipTests symbols)) = sipTests symbols
    ∧ mainCallSeq (harnessUnit (sipTests symbols)) = sipTests symbols
    ∧ sipForward (sipTests symbols)
        = joinLines (((sipTests symbols).map CDecl.forwardDecl).map renderDecl)
    ∧ sipBody (sipTests symbols)
        = joinLines (((sipTests symbols).flatMap harnessStmts).map renderStmt)
    ∧ sipHarness ["alpha", "testfoo", "est_bar"]
        = "#include <stdio.h>\n\n\n\nint main() \x7b\n\n\x7d" := by
  refine ⟨?_, List.filter_sublist symbols, declaredFns_aux _ _,
    mainCallSeq_aux _, ?_, sipBody_eq _, by rfl⟩
  · intro t
    simp [sipTests, List.mem_filter]
  · rw [List.map_map]
    rfl

theorem c9_witness :
    mainCallSeq (harnessUnit (sipTests ["test_alpha", "beta"]))
      = sipTests ["test_alpha", "beta"] :=
  (c9_test_harness ["test_alpha", "beta"]).2.2.2.1

end Teapot
